import Mathlib

/-!
Verification of the journalled account meta-database
(src/ethcore/src/state/meta_db.rs).

The Rust source is shallowly embedded as executable Lean definitions:

* `H256` and `Address` become `Nat` (both are opaque identifiers compared
  for equality; `BTreeSet`/`BTreeMap` ordering on them becomes the
  numeric order).
* `HashMap k v` becomes an association list `List (k × v)`; lookup takes
  the first matching key, insertion replaces any binding for the key.
* `BTreeMap`/`BTreeSet` become association lists kept in ascending key
  order by an order-preserving insert, so that key iteration order
  matches the Rust iteration order.
* The durable key-value store (`util::kvdb::Database`) becomes the
  structure `DB` with one field per key namespace used by the source:
  raw entity (address) keys, the literal key "base", the per-era
  candidate-list keys produced by `journal_key`, and the per-block keys
  produced by `id_key`.  The four namespaces are disjoint in the source
  (the two RLP-list keys differ in payload width, and neither collides
  with the 4-byte "base" key or 20-byte addresses), so a record field
  per namespace is a faithful rendering.  The store holds decoded
  values; the byte-level codec is modelled separately by `Rlp`,
  `encodeAccountMeta`, `encodeJournalEntry` and their decoders, and its
  round trip is proved below.
* `DBTransaction` becomes `List BatchOp`, and `commit` plays the role of
  `Database::write`, applying the staged operations in order.
* Functions that can panic (`expect`, `assert_eq!`) return `Option`,
  with `none` standing for the panic; fallible functions return
  `Except Error`.
* The `Arc<RwLock<_>>` sharing and the locks are elided: all operations
  of the source are synchronous and run to completion under the lock,
  so each is modelled as a pure state transformer.
-/

namespace MetaDb

/-- Account addresses (20-byte identifiers in the source). -/
abbrev Address := Nat

/-- 32-byte hashes (`H256` in the source). -/
abbrev Hash := Nat

/-- Errors of the meta db, from `enum Error` in the source. -/
inductive Error where
  | Database : String → Error
  | MissingJournalEntry : Nat → Hash → Error
  | StatePruned : Nat → Hash → Error
deriving DecidableEq, Repr

/-- Account meta-information, from `struct AccountMeta`. -/
structure AccountMeta where
  code_size : Nat
  code_hash : Hash
  storage_root : Hash
  balance : Nat
  nonce : Nat
deriving DecidableEq, Repr

/-- One journal entry, from `struct JournalEntry`: the parent id of the
block and the map of account changes it introduced (`none` is a
tombstone). -/
structure JournalEntry where
  parent : Hash
  entries : List (Address × Option AccountMeta)
deriving DecidableEq, Repr

/-- First-match association-list lookup (HashMap/BTreeMap `get`). -/
def assocLookup {α β : Type} [DecidableEq α] : List (α × β) → α → Option β
  | [], _ => none
  | (k, v) :: rest, a => if a = k then some v else assocLookup rest a

/-- Drop every binding of key `k` (HashMap/BTreeMap `remove`). -/
def assocRemove {α β : Type} [DecidableEq α] (k : α) (l : List (α × β)) :
    List (α × β) :=
  l.filter (fun p => decide (p.1 ≠ k))

/-- HashMap `insert`: replace any binding of `k` by `(k, v)`.  The pair
is placed at the end; a `HashMap` is unordered, so the position is a
representation choice. -/
def assocInsert {α β : Type} [DecidableEq α] (k : α) (v : β)
    (l : List (α × β)) : List (α × β) :=
  assocRemove k l ++ [(k, v)]

/-- Strict ascending order on `(era, hash)` keys, the `Ord` used by the
`BTreeMap`/`BTreeSet` of the source. -/
def keyLt (a b : Nat × Hash) : Bool :=
  decide (a.1 < b.1) || (decide (a.1 = b.1) && decide (a.2 < b.2))

/-- Order-preserving insert into the `BTreeMap` of journal entries. -/
def entriesInsert : List ((Nat × Hash) × JournalEntry) → (Nat × Hash) →
    JournalEntry → List ((Nat × Hash) × JournalEntry)
  | [], k, v => [(k, v)]
  | (k2, v2) :: rest, k, v =>
    if keyLt k k2 then (k, v) :: (k2, v2) :: rest
    else if k = k2 then (k, v) :: rest
    else (k2, v2) :: entriesInsert rest k v

/-- Order-preserving insert into a `BTreeSet` of `(era, id)` pairs. -/
def setInsert (q : Nat × Hash) : List (Nat × Hash) → List (Nat × Hash)
  | [] => [q]
  | r :: rest =>
    if keyLt q r then q :: r :: rest
    else if q = r then r :: rest
    else r :: setInsert q rest

/-- Decidable equality of results (used only to evaluate concrete
scenarios). -/
instance {ε α : Type} [DecidableEq ε] [DecidableEq α] :
    DecidableEq (Except ε α) :=
  fun a b =>
    match a, b with
    | .error e1, .error e2 =>
      if h : e1 = e2 then isTrue (by rw [h]) else isFalse (by simp [h])
    | .ok v1, .ok v2 =>
      if h : v1 = v2 then isTrue (by rw [h]) else isFalse (by simp [h])
    | .error e1, .ok v2 => isFalse (by simp)
    | .ok v1, .error e2 => isFalse (by simp)

/-- The in-memory journal, from `struct Journal`. -/
structure Journal where
  entries : List ((Nat × Hash) × JournalEntry)
  modifications : List (Address × List (Nat × Hash))
  canon_base : Nat × Hash
deriving DecidableEq, Repr

/-- The `(era, id)` pairs recorded for an address in the modification
index (empty list when the address is absent). -/
def modsGet (ms : List (Address × List (Nat × Hash))) (a : Address) :
    List (Nat × Hash) :=
  (assocLookup ms a).getD []

/-- `journal.modifications.entry(addr).or_insert_with(BTreeSet::new).insert(q)`. -/
def modAdd (ms : List (Address × List (Nat × Hash))) (a : Address)
    (q : Nat × Hash) : List (Address × List (Nat × Hash)) :=
  assocInsert a (setInsert q (modsGet ms a)) ms

/-- Removal of one `(era, id)` pair from the modification set of `a`,
dropping the whole index entry when the set becomes empty; from the
`remove modifications entries` block of `mark_canonical`. -/
def modRemove (ms : List (Address × List (Nat × Hash))) (a : Address)
    (q : Nat × Hash) : List (Address × List (Nat × Hash)) :=
  match assocLookup ms a with
  | none => ms
  | some l =>
    if l.filter (fun r => decide (r ≠ q)) = [] then assocRemove a ms
    else assocInsert a (l.filter (fun r => decide (r ≠ q))) ms

/-- The durable store, one field per key namespace (see the module
comment). -/
structure DB where
  meta : List (Address × AccountMeta)
  base : Option (Nat × Hash)
  journalKeys : List (Nat × List Hash)
  idKeys : List (Hash × JournalEntry)
deriving DecidableEq, Repr

def emptyDB : DB := ⟨[], none, [], []⟩

/-- Direct canonical-store lookup of an entity key. -/
def metaAt (db : DB) (a : Address) : Option AccountMeta :=
  assocLookup db.meta a

/-- One staged write of a `DBTransaction`. -/
inductive BatchOp where
  | putMeta : Address → AccountMeta → BatchOp
  | delMeta : Address → BatchOp
  | putBase : Nat × Hash → BatchOp
  | putJournalKey : Nat → List Hash → BatchOp
  | delJournalKey : Nat → BatchOp
  | putIdKey : Hash → JournalEntry → BatchOp
  | delIdKey : Hash → BatchOp
deriving DecidableEq, Repr

def applyOp (db : DB) : BatchOp → DB
  | .putMeta a m => { db with meta := assocInsert a m db.meta }
  | .delMeta a => { db with meta := assocRemove a db.meta }
  | .putBase b => { db with base := some b }
  | .putJournalKey e l => { db with journalKeys := assocInsert e l db.journalKeys }
  | .delJournalKey e => { db with journalKeys := assocRemove e db.journalKeys }
  | .putIdKey h e => { db with idKeys := assocInsert h e db.idKeys }
  | .delIdKey h => { db with idKeys := assocRemove h db.idKeys }

/-- `Database::write`: apply a transaction atomically, in order. -/
def commit (db : DB) (batch : List BatchOp) : DB :=
  batch.foldl applyOp db

/-- Candidate ids recorded at one era, in key order; this is the
`skip_while / take_while` scan of `Journal::write_era` and of
`mark_canonical`. -/
def candidateIds (l : List ((Nat × Hash) × JournalEntry)) (era : Nat) :
    List Hash :=
  (l.filter (fun p => decide (p.1.1 = era))).map (fun p => p.1.2)

/-- Candidate `(id, entry)` pairs at one era.  `mark_canonical` collects
the ids and then re-looks each one up with an `expect` that cannot fail
(the id was just taken from the map); collecting the pairs directly is
the same computation without the impossible panic branch. -/
def candPairs (l : List ((Nat × Hash) × JournalEntry)) (era : Nat) :
    List (Hash × JournalEntry) :=
  (l.filter (fun p => decide (p.1.1 = era))).map (fun p => (p.1.2, p.2))

/-- Insert one journal entry under `(era, h)` and index its touched
addresses; the shared core of `journal_under` and `Journal::read_from`. -/
def addJournalEntry (j : Journal) (era : Nat) (h : Hash) (e : JournalEntry) :
    Journal :=
  ⟨entriesInsert j.entries (era, h) e,
   (e.entries.map Prod.fst).foldl (fun ms a => modAdd ms a (era, h))
     j.modifications,
   j.canon_base⟩

/-- The meta db front end: the shared journal and the private pending
overlay.  The store handle is passed explicitly to the operations that
read it. -/
structure MetaDB where
  journal : Journal
  overlay : List (Address × Option AccountMeta)
deriving DecidableEq, Repr

/-- `MetaDB::journal_under`: move the whole overlay into a new journal
entry under `(now, id)`, index the touched addresses, and stage the
serialized entry and the updated candidate list for `now`. -/
def MetaDB.journal_under (m : MetaDB) (batch : List BatchOp) (now : Nat)
    (id : Hash) (parent_id : Hash) : MetaDB × List BatchOp :=
  let j_entry : JournalEntry := ⟨parent_id, m.overlay⟩
  let j2 := addJournalEntry m.journal now id j_entry
  (⟨j2, []⟩,
   batch ++ [BatchOp.putIdKey id j_entry,
             BatchOp.putJournalKey now (candidateIds j2.entries now)])

/-- The staged entity writes of one journal entry: a put for each set
record, a delete for each tombstone (the `apply canonical changes` block
of `mark_canonical`). -/
def deltaOps (l : List (Address × Option AccountMeta)) : List BatchOp :=
  l.map (fun q =>
    match q.2 with
    | some d => BatchOp.putMeta q.1 d
    | none => BatchOp.delMeta q.1)

/-- One candidate of the `mark_canonical` loop: remove its entry from
the journal, stage deletion of its on-disk record, un-index its touched
addresses, and, for the canonical candidate only, stage its changes
against the entity keys. -/
def markStep (end_era : Nat) (canon_id : Hash)
    (acc : Journal × List BatchOp) (p : Hash × JournalEntry) :
    Journal × List BatchOp :=
  let j := acc.1
  let newEntries := assocRemove (end_era, p.1) j.entries
  let mods := (p.2.entries.map Prod.fst).foldl
    (fun ms a => modRemove ms a (end_era, p.1)) j.modifications
  let batch := acc.2 ++ [BatchOp.delIdKey p.1]
  let batch := if p.1 = canon_id then batch ++ deltaOps p.2.entries
    else batch
  (⟨newEntries, mods, j.canon_base⟩, batch)

/-- The batch operations the `mark_canonical` loop appends, one group
per candidate. -/
def markOps (canon_id : Hash) : List (Hash × JournalEntry) → List BatchOp
  | [] => []
  | p :: rest =>
    BatchOp.delIdKey p.1 ::
      ((if p.1 = canon_id then deltaOps p.2.entries else []) ++
        markOps canon_id rest)

/-- `MetaDB::mark_canonical`: process every candidate at `end_era`, set
the canonical base to `(end_era, canon_id)`, stage the updated base
marker and deletion of the candidate-list key. -/
def MetaDB.mark_canonical (m : MetaDB) (batch : List BatchOp)
    (end_era : Nat) (canon_id : Hash) : MetaDB × List BatchOp :=
  let j := m.journal
  let r := (candPairs j.entries end_era).foldl (markStep end_era canon_id)
    (j, batch)
  (⟨⟨r.1.entries, r.1.modifications, (end_era, canon_id)⟩, m.overlay⟩,
   r.2 ++ [BatchOp.putBase (end_era, canon_id),
           BatchOp.delJournalKey end_era])

/-- The inner `while era > mod_era` walk of `MetaDB::get`: follow parent
links downward until the current era equals `mod_era`, failing when a
parent entry is missing.  Structural recursion on the era. -/
def walkBack (j : Journal) (modEra : Nat) :
    Nat → Hash → JournalEntry → Except Error (Nat × Hash × JournalEntry)
  | 0, id, entry => Except.ok (0, id, entry)
  | era + 1, id, entry =>
    if modEra < era + 1 then
      match assocLookup j.entries (era, entry.parent) with
      | none => Except.error (Error.MissingJournalEntry era entry.parent)
      | some e2 => walkBack j modEra era entry.parent e2
    else Except.ok (era + 1, id, entry)

/-- The post-loop tail of `MetaDB::get`: pruned-state check, then the
direct store read. -/
def getFinish (j : Journal) (db : DB) (addr : Address) (era : Nat)
    (id : Hash) : Except Error (Option AccountMeta) :=
  if era ≤ j.canon_base.1 ∧ id ≠ j.canon_base.2 then
    Except.error (Error.StatePruned era id)
  else Except.ok (metaAt db addr)

/-- The `for` loop of `MetaDB::get` over the modification points of the
address in descending order.  `none` models the `expect` / `assert_eq!`
panics of the source. -/
def getLoop (j : Journal) (db : DB) (addr : Address) :
    List (Nat × Hash) → Nat → Hash → JournalEntry →
    Option (Except Error (Option AccountMeta))
  | [], era, id, _ => some (getFinish j db addr era id)
  | (modEra, modId) :: rest, era, id, entry =>
    if era ≤ j.canon_base.1 then some (getFinish j db addr era id)
    else
      match walkBack j modEra era id entry with
      | .error e => some (.error e)
      | .ok (era2, id2, entry2) =>
        if modId ≠ id2 then getLoop j db addr rest era2 id2 entry2
        else if era2 = modEra then
          match assocLookup entry2.entries addr with
          | some v => some (.ok v)
          | none => none
        else none

/-- `MetaDB::get`: overlay first, then the base fast path, then the
journal walk. -/
def MetaDB.get (m : MetaDB) (db : DB) (address : Address)
    (tgt : Nat × Hash) : Option (Except Error (Option AccountMeta)) :=
  match assocLookup m.overlay address with
  | some meta => some (.ok meta)
  | none =>
    let j := m.journal
    if tgt = j.canon_base then some (.ok (metaAt db address))
    else
      match assocLookup j.entries tgt with
      | none => some (.error (.MissingJournalEntry tgt.1 tgt.2))
      | some entry =>
        getLoop j db address (modsGet j.modifications address).reverse
          tgt.1 tgt.2 entry

/-- `MetaDB::set`: stage a pending write in the overlay. -/
def MetaDB.set (m : MetaDB) (address : Address) (meta : AccountMeta) :
    MetaDB :=
  { m with overlay := assocInsert address (some meta) m.overlay }

/-- `MetaDB::remove`: stage a pending tombstone in the overlay. -/
def MetaDB.remove (m : MetaDB) (address : Address) : MetaDB :=
  { m with overlay := assocInsert address none m.overlay }

/-- Process the candidate hashes of one era during journal load;
`none` models the corrupted-database panic when a listed id has no
on-disk entry. -/
def processHashes (db : DB) (era : Nat) :
    Journal → List Hash → Option Journal
  | j, [] => some j
  | j, h :: rest =>
    match assocLookup db.idKeys h with
    | none => none
    | some e => processHashes db era (addJournalEntry j era h e) rest

/-- The era loop of `Journal::read_from`, with explicit fuel standing
for the (finite) supply of consecutive candidate-list keys; `none` on
fuel exhaustion models the unreached case of a store with unboundedly
many consecutive eras. -/
def readLoop (db : DB) : Nat → Nat → Journal → Option Journal
  | 0, era, j =>
    match assocLookup db.journalKeys era with
    | none => some j
    | some _ => none
  | fuel + 1, era, j =>
    match assocLookup db.journalKeys era with
    | none => some j
    | some hashes =>
      match processHashes db era j hashes with
      | none => none
      | some j2 => readLoop db fuel (era + 1) j2

/-- `Journal::read_from`: rebuild the journal from the durable store,
starting just above the committed base. -/
def Journal.read_from (db : DB) (base : Nat × Hash) (fuel : Nat) :
    Option Journal :=
  readLoop db fuel (base.1 + 1) ⟨[], [], base⟩

/-- `MetaDB::new`: read the base marker (defaulting to height 0 at the
genesis hash) and load the journal. -/
def MetaDB.new (db : DB) (genesis_hash : Hash) (fuel : Nat) :
    Option MetaDB :=
  let base := db.base.getD (0, genesis_hash)
  (Journal.read_from db base fuel).map (fun j => ⟨j, []⟩)

/-!
Wire encoding.  RLP items are modelled structurally: a byte string or a
list of items.  Unsigned values are carried as their minimal big-endian
byte strings (`natBytes`); fixed-width padding of `H256` values and the
length-prefixed framing are byte-level details below this abstraction.
-/

/-- A structural RLP item. -/
inductive Rlp where
  | str : List Nat → Rlp
  | list : List Rlp → Rlp

/-- Decoder failure (the rlp crate `DecoderError`, collapsed to one
constructor: which malformation occurred is irrelevant here). -/
inductive DecoderError where
  | malformed : DecoderError
deriving DecidableEq, Repr

/-- Minimal big-endian byte string of a natural number. -/
def natBytes (n : Nat) : List Nat :=
  if h : n = 0 then [] else natBytes (n / 256) ++ [n % 256]
termination_by n
decreasing_by exact Nat.div_lt_self (Nat.pos_of_ne_zero h) (by omega)

/-- Big-endian value of a byte string. -/
def bytesNat (l : List Nat) : Nat :=
  l.foldl (fun acc b => acc * 256 + b) 0

/-- `RlpEncodable for AccountMeta`: the fixed 5-field list. -/
def encodeAccountMeta (m : AccountMeta) : Rlp :=
  .list [.str (natBytes m.code_size), .str (natBytes m.code_hash),
         .str (natBytes m.storage_root), .str (natBytes m.balance),
         .str (natBytes m.nonce)]

/-- `RlpDecodable for AccountMeta`. -/
def decodeAccountMeta : Rlp → Except DecoderError AccountMeta
  | .list [.str a, .str b, .str c, .str d, .str e] =>
    .ok ⟨bytesNat a, bytesNat b, bytesNat c, bytesNat d, bytesNat e⟩
  | _ => .error .malformed

/-- Bool encoding used by `append(&true)` / `append(&false)`. -/
def encodeBool (b : Bool) : Rlp :=
  .str (if b then [1] else [])

def decodeBool : Rlp → Except DecoderError Bool
  | .str [] => .ok false
  | .str [1] => .ok true
  | _ => .error .malformed

/-- One change of a journal entry on the wire:
`[is_set, record_or_empty]`. -/
def encodeDelta : Option AccountMeta → Rlp
  | some m => .list [encodeBool true, encodeAccountMeta m]
  | none => .list [encodeBool false, .str []]

/-- One `[entity_key, [is_set, record_or_empty]]` item. -/
def encodeDeltaItem (p : Address × Option AccountMeta) : Rlp :=
  .list [.str (natBytes p.1), encodeDelta p.2]

/-- `RlpEncodable for JournalEntry`:
`[parent, [[addr, [is_set, record]], ...]]`. -/
def encodeJournalEntry (je : JournalEntry) : Rlp :=
  .list [.str (natBytes je.parent), .list (je.entries.map encodeDeltaItem)]

/-- Decode one change item: `entry.val_at(0)` for the address and
`entry.at(1)` for the flagged payload; trailing items are ignored, as
positional access ignores them in the source. -/
def decodeDeltaItem : Rlp → Except DecoderError (Address × Option AccountMeta)
  | .list (.str addrB :: maybe :: _) =>
    match maybe with
    | .list (flagR :: rest) =>
      match decodeBool flagR with
      | .error er => .error er
      | .ok true =>
        match rest with
        | payload :: _ =>
          match decodeAccountMeta payload with
          | .error er => .error er
          | .ok m => .ok (bytesNat addrB, some m)
        | [] => .error .malformed
      | .ok false => .ok (bytesNat addrB, none)
    | _ => .error .malformed
  | _ => .error .malformed

/-- The decoding loop of `RlpDecodable for JournalEntry`: each decoded
item is inserted into the `HashMap` of changes. -/
def decodeItems : List Rlp → List (Address × Option AccountMeta) →
    Except DecoderError (List (Address × Option AccountMeta))
  | [], acc => .ok acc
  | r :: rest, acc =>
    match decodeDeltaItem r with
    | .error er => .error er
    | .ok (a, d) => decodeItems rest (assocInsert a d acc)

/-- `RlpDecodable for JournalEntry`. -/
def decodeJournalEntry : Rlp → Except DecoderError JournalEntry
  | .list (.str pB :: .list items :: _) =>
    match decodeItems items [] with
    | .error er => .error er
    | .ok entries => .ok ⟨bytesNat pB, entries⟩
  | _ => .error .malformed

/-!
Concrete persistence scenario for the round trip through the durable
store: ten successive blocks sealed at heights 1 to 10, block `i` having
id `i`, parent `i - 1` and a delta touching only address `i`; then
height 1 is finalized with block 1 as canonical.  This mirrors the
`loads_journal` test of the source, with each block additionally
touching its own key.
-/

def demoMeta (i : Nat) : AccountMeta := ⟨i, i, i, i, i⟩

def demoStep (acc : MetaDB × DB) (i : Nat) : MetaDB × DB :=
  let m := acc.1.set i (demoMeta i)
  let r := m.journal_under [] i i (i - 1)
  (r.1, commit acc.2 r.2)

/-- The state after sealing the ten blocks, each batch committed. -/
def demoSealed : MetaDB × DB :=
  (List.range 10).foldl (fun acc k => demoStep acc (k + 1))
    (⟨⟨[], [], (0, 0)⟩, []⟩, emptyDB)

/-- The state after additionally finalizing height 1 with block 1. -/
def demoFinal : MetaDB × DB :=
  let r := demoSealed.1.mark_canonical [] 1 1
  (r.1, commit demoSealed.2 r.2)

/-- The invariant of the modification index: `(h, id)` is recorded for
address `K` exactly when the journal entry stored at `(h, id)` contains
a change for `K`. -/
def modIndexInv (j : Journal) : Prop :=
  ∀ (K : Address) (p : Nat × Hash),
    p ∈ modsGet j.modifications K ↔
      ∃ e, assocLookup j.entries p = some e ∧ K ∈ e.entries.map Prod.fst

/-- Well-formedness of the durable store for journal load: each
persisted candidate list holds distinct ids (collecting into a
`HashMap`, the source would otherwise silently merge duplicates). -/
def dbWF (db : DB) : Prop :=
  ∀ era l, assocLookup db.journalKeys era = some l → l.Nodup

/-!
Association-list and ordered-insert lemmas.
-/

theorem assocLookup_append {α β : Type} [DecidableEq α]
    (l1 l2 : List (α × β)) (a : α) :
    assocLookup (l1 ++ l2) a =
      match assocLookup l1 a with
      | some v => some v
      | none => assocLookup l2 a := by
  induction l1 with
  | nil => simp [assocLookup]
  | cons p rest ih =>
    by_cases h : a = p.1
    · simp [assocLookup, h]
    · simp [assocLookup, h, ih]

theorem assocRemove_cons {α β : Type} [DecidableEq α]
    (k : α) (p : α × β) (rest : List (α × β)) :
    assocRemove k (p :: rest) =
      if p.1 = k then assocRemove k rest else p :: assocRemove k rest := by
  by_cases h : p.1 = k <;> simp [assocRemove, List.filter_cons, h]

theorem assocLookup_remove {α β : Type} [DecidableEq α]
    (k : α) (l : List (α × β)) (a : α) :
    assocLookup (assocRemove k l) a =
      if a = k then none else assocLookup l a := by
  induction l with
  | nil => simp [assocRemove, assocLookup]
  | cons p rest ih =>
    rw [assocRemove_cons]
    by_cases hpk : p.1 = k
    · rw [if_pos hpk, ih]
      by_cases hak : a = k
      · simp [hak]
      · have hap : a ≠ p.1 := fun he => hak (he.trans hpk)
        simp [hak, assocLookup, hap]
    · rw [if_neg hpk]
      by_cases hap : a = p.1
      · have hak : ¬a = k := fun he => hpk ((hap.symm.trans he))
        simp [assocLookup, hap, hak, hpk]
      · simp [assocLookup, hap, ih]

theorem assocLookup_insert {α β : Type} [DecidableEq α]
    (k : α) (v : β) (l : List (α × β)) (a : α) :
    assocLookup (assocInsert k v l) a =
      if a = k then some v else assocLookup l a := by
  rw [assocInsert, assocLookup_append]
  by_cases h : a = k
  · simp [assocLookup_remove, h, assocLookup]
  · simp only [assocLookup_remove, if_neg h]
    cases assocLookup l a <;> simp [assocLookup, h]

theorem assocLookup_isSome_iff {α β : Type} [DecidableEq α]
    (l : List (α × β)) (a : α) :
    (assocLookup l a).isSome ↔ a ∈ l.map Prod.fst := by
  induction l with
  | nil => simp [assocLookup]
  | cons p rest ih =>
    by_cases h : a = p.1
    · simp [assocLookup, h]
    · have h2 : ¬p.1 = a := fun he => h he.symm
      simp [assocLookup, h, ih, h2]

theorem assocLookup_none_of_not_mem {α β : Type} [DecidableEq α]
    {l : List (α × β)} {a : α} (h : a ∉ l.map Prod.fst) :
    assocLookup l a = none := by
  cases hl : assocLookup l a with
  | none => rfl
  | some v =>
    exact absurd ((assocLookup_isSome_iff l a).1 (by simp [hl])) h

theorem assocLookup_eq_some_of_mem {α β : Type} [DecidableEq α]
    {l : List (α × β)} {k : α} {v : β}
    (hmem : (k, v) ∈ l) (hnd : (l.map Prod.fst).Nodup) :
    assocLookup l k = some v := by
  induction l with
  | nil => simp at hmem
  | cons p rest ih =>
    simp only [List.map_cons, List.nodup_cons] at hnd
    rcases List.mem_cons.1 hmem with h | h
    · subst h
      simp [assocLookup]
    · have hk : k ≠ p.1 := by
        intro he
        exact hnd.1 (he ▸ (List.mem_map.2 ⟨(k, v), h, rfl⟩))
      simp [assocLookup, hk, ih h hnd.2]

theorem assocLookup_mem {α β : Type} [DecidableEq α]
    {l : List (α × β)} {k : α} {v : β}
    (h : assocLookup l k = some v) : (k, v) ∈ l := by
  induction l with
  | nil => simp [assocLookup] at h
  | cons p rest ih =>
    obtain ⟨k1, v1⟩ := p
    by_cases hk : k = k1
    · subst hk
      simp [assocLookup] at h
      subst h
      exact List.mem_cons_self _ _
    · simp [assocLookup, hk] at h
      exact List.mem_cons_of_mem _ (ih h)

theorem assocRemove_eq_self {α β : Type} [DecidableEq α]
    {l : List (α × β)} {k : α} (h : k ∉ l.map Prod.fst) :
    assocRemove k l = l := by
  induction l with
  | nil => rfl
  | cons p rest ih =>
    simp only [List.map_cons, List.mem_cons, not_or] at h
    have hne : p.1 ≠ k := fun he => h.1 he.symm
    rw [assocRemove_cons, if_neg hne, ih h.2]

theorem entriesLookup_insert (l : List ((Nat × Hash) × JournalEntry))
    (k : Nat × Hash) (v : JournalEntry) (a : Nat × Hash) :
    assocLookup (entriesInsert l k v) a =
      if a = k then some v else assocLookup l a := by
  induction l with
  | nil => simp [entriesInsert, assocLookup]
  | cons p rest ih =>
    obtain ⟨k2, v2⟩ := p
    simp only [entriesInsert]
    by_cases h1 : keyLt k k2
    · rw [if_pos h1]
      by_cases hak : a = k <;> simp [assocLookup, hak]
    · rw [if_neg h1]
      by_cases h2 : k = k2
      · subst h2
        rw [if_pos rfl]
        by_cases hak : a = k <;> simp [assocLookup, hak]
      · rw [if_neg h2]
        by_cases hak2 : a = k2
        · have hak : ¬a = k := fun he => h2 (he.symm.trans hak2)
          have hk2k : ¬k2 = k := fun he => h2 he.symm
          simp [assocLookup, hak2, hak, hk2k]
        · simp [assocLookup, hak2, ih]

theorem setInsert_mem (q : Nat × Hash) (l : List (Nat × Hash))
    (x : Nat × Hash) : x ∈ setInsert q l ↔ x = q ∨ x ∈ l := by
  induction l with
  | nil => simp [setInsert]
  | cons r rest ih =>
    simp only [setInsert]
    by_cases h1 : keyLt q r
    · rw [if_pos h1]
      simp [List.mem_cons]
    · rw [if_neg h1]
      by_cases h2 : q = r
      · subst h2
        rw [if_pos rfl]
        simp [List.mem_cons]
      · rw [if_neg h2]
        simp [List.mem_cons, ih]
        tauto

theorem modsGet_modAdd (ms : List (Address × List (Nat × Hash)))
    (a : Address) (q : Nat × Hash) (b : Address) :
    modsGet (modAdd ms a q) b =
      if b = a then setInsert q (modsGet ms a) else modsGet ms b := by
  by_cases h : b = a <;> simp [modAdd, modsGet, assocLookup_insert, h]

theorem modsGet_modRemove (ms : List (Address × List (Nat × Hash)))
    (a : Address) (q : Nat × Hash) (b : Address) :
    modsGet (modRemove ms a q) b =
      if b = a then (modsGet ms a).filter (fun r => decide (r ≠ q))
      else modsGet ms b := by
  cases hl : assocLookup ms a with
  | none =>
    have hred : modRemove ms a q = ms := by
      unfold modRemove
      rw [hl]
    rw [hred]
    by_cases h : b = a
    · subst h
      simp [modsGet, hl]
    · simp [modsGet, h]
  | some l =>
    have hred : modRemove ms a q =
        if l.filter (fun r => decide (r ≠ q)) = [] then assocRemove a ms
        else assocInsert a (l.filter (fun r => decide (r ≠ q))) ms := by
      unfold modRemove
      rw [hl]
    rw [hred]
    by_cases he : l.filter (fun r => decide (r ≠ q)) = []
    · rw [if_pos he]
      by_cases h : b = a
      · subst h
        rw [if_pos rfl]
        have h1 : modsGet (assocRemove b ms) b = [] := by
          simp [modsGet, assocLookup_remove]
        have h2 : modsGet ms b = l := by
          simp [modsGet, hl]
        rw [h1, h2, he]
      · simp [modsGet, assocLookup_remove, h]
    · rw [if_neg he]
      by_cases h : b = a
      · subst h
        simp [modsGet, assocLookup_insert, hl]
      · simp [modsGet, assocLookup_insert, h]

theorem modsGet_addFold (keys : List Address) (q : Nat × Hash) :
    ∀ (ms : List (Address × List (Nat × Hash))) (b : Address)
      (x : Nat × Hash),
    x ∈ modsGet (keys.foldl (fun ms a => modAdd ms a q) ms) b ↔
      x ∈ modsGet ms b ∨ (x = q ∧ b ∈ keys) := by
  induction keys with
  | nil => simp
  | cons a ks ih =>
    intro ms b x
    rw [List.foldl_cons, ih, modsGet_modAdd]
    by_cases h : b = a
    · subst h
      simp [setInsert_mem, List.mem_cons] <;> tauto
    · simp [h, List.mem_cons] <;> tauto

theorem modsGet_removeFold (keys : List Address) (q : Nat × Hash) :
    ∀ (ms : List (Address × List (Nat × Hash))) (b : Address)
      (x : Nat × Hash),
    x ∈ modsGet (keys.foldl (fun ms a => modRemove ms a q) ms) b ↔
      x ∈ modsGet ms b ∧ ¬(x = q ∧ b ∈ keys) := by
  induction keys with
  | nil => simp
  | cons a ks ih =>
    intro ms b x
    rw [List.foldl_cons, ih, modsGet_modRemove]
    by_cases h : b = a
    · subst h
      simp [List.mem_filter, List.mem_cons] <;> tauto
    · simp [h, List.mem_cons] <;> tauto

/-!
The Modification Index invariant and its preservation.
-/

theorem modIndexInv_empty (ms : List (Address × List (Nat × Hash)))
    (hms : ms = []) (E : List ((Nat × Hash) × JournalEntry)) (hE : E = [])
    (cb : Nat × Hash) : modIndexInv ⟨E, ms, cb⟩ := by
  subst hms
  subst hE
  intro K p
  simp [modsGet, assocLookup]

theorem inv_addJournalEntry (j : Journal) (era : Nat) (h2 : Hash)
    (e : JournalEntry) (hinv : modIndexInv j)
    (hfresh : assocLookup j.entries (era, h2) = none) :
    modIndexInv (addJournalEntry j era h2 e) := by
  intro K p
  unfold addJournalEntry
  simp only
  rw [modsGet_addFold, entriesLookup_insert]
  by_cases hp : p = (era, h2)
  · subst hp
    rw [if_pos rfl]
    constructor
    · rintro (hold | ⟨-, hK⟩)
      · rcases (hinv K _).1 hold with ⟨e2, he2, -⟩
        rw [hfresh] at he2
        cases he2
      · exact ⟨e, rfl, hK⟩
    · rintro ⟨e2, he2, hK⟩
      cases he2
      exact Or.inr ⟨rfl, hK⟩
  · rw [if_neg hp]
    rw [hinv K p]
    constructor
    · rintro (h | ⟨h, -⟩)
      · exact h
      · exact absurd h hp
    · exact Or.inl

theorem inv_removeEntry (E : List ((Nat × Hash) × JournalEntry))
    (ms : List (Address × List (Nat × Hash))) (cb cb2 : Nat × Hash)
    (H : Nat) (id : Hash) (e : JournalEntry)
    (hinv : modIndexInv ⟨E, ms, cb⟩)
    (hlook : assocLookup E (H, id) = some e) :
    modIndexInv ⟨assocRemove (H, id) E,
      (e.entries.map Prod.fst).foldl (fun m a => modRemove m a (H, id)) ms,
      cb2⟩ := by
  intro K p
  simp only
  rw [modsGet_removeFold, assocLookup_remove]
  by_cases hp : p = (H, id)
  · subst hp
    rw [if_pos rfl]
    simp only [exists_and_left]
    constructor
    · rintro ⟨hold, hnk⟩
      rcases (hinv K _).1 hold with ⟨e2, he2, hK⟩
      rw [hlook] at he2
      cases he2
      exact absurd ⟨trivial, hK⟩ hnk
    · rintro ⟨e2, he2, -⟩
      cases he2
  · rw [if_neg hp]
    rw [← hinv K p]
    constructor
    · rintro ⟨h, -⟩
      exact h
    · intro h
      refine ⟨h, ?_⟩
      rintro ⟨rfl, -⟩
      exact hp rfl

theorem markStep_fst (end_era : Nat) (canon_id : Hash)
    (j : Journal) (b : List BatchOp) (p : Hash × JournalEntry) :
    (markStep end_era canon_id (j, b) p).1 =
      ⟨assocRemove (end_era, p.1) j.entries,
       (p.2.entries.map Prod.fst).foldl
         (fun m a => modRemove m a (end_era, p.1)) j.modifications,
       j.canon_base⟩ := by
  rfl

theorem inv_markFold (end_era : Nat) (canon_id : Hash) :
    ∀ (ps : List (Hash × JournalEntry)) (j : Journal) (b : List BatchOp),
    modIndexInv j →
    (∀ p ∈ ps, assocLookup j.entries (end_era, p.1) = some p.2) →
    ((ps.map Prod.fst).Nodup) →
    modIndexInv ((ps.foldl (markStep end_era canon_id) (j, b)).1) := by
  intro ps
  induction ps with
  | nil =>
    intro j b hinv _ _
    exact hinv
  | cons p rest ih =>
    intro j b hinv hlook hnd
    rw [List.foldl_cons]
    have hstep := markStep_fst end_era canon_id j b p
    obtain ⟨E1, M1, C1⟩ : ∃ E1 M1 C1,
        markStep end_era canon_id (j, b) p = (⟨E1, M1, C1⟩, (markStep end_era canon_id (j, b) p).2) := by
      exact ⟨_, _, _, by rw [← hstep]⟩
    rw [List.map_cons, List.nodup_cons] at hnd
    have hinv2 : modIndexInv (markStep end_era canon_id (j, b) p).1 := by
      rw [hstep]
      exact inv_removeEntry j.entries j.modifications j.canon_base
        j.canon_base end_era p.1 p.2
        (by
          cases j
          exact hinv)
        (hlook p (List.mem_cons_self p rest))
    have hlook2 : ∀ q ∈ rest,
        assocLookup (markStep end_era canon_id (j, b) p).1.entries
          (end_era, q.1) = some q.2 := by
      intro q hq
      rw [hstep]
      simp only
      rw [assocLookup_remove]
      have hne : q.1 ≠ p.1 := by
        intro he
        exact hnd.1 (he ▸ (List.mem_map.2 ⟨q, hq, rfl⟩))
      rw [if_neg (by simp [hne])]
      exact hlook q (List.mem_cons_of_mem p hq)
    have := ih (markStep end_era canon_id (j, b) p).1
      (markStep end_era canon_id (j, b) p).2 hinv2 hlook2 hnd.2
    simpa using this

theorem candPairs_cons (p : (Nat × Hash) × JournalEntry)
    (rest : List ((Nat × Hash) × JournalEntry)) (era : Nat) :
    candPairs (p :: rest) era =
      if p.1.1 = era then (p.1.2, p.2) :: candPairs rest era
      else candPairs rest era := by
  by_cases h : p.1.1 = era <;> simp [candPairs, List.filter_cons, h]

theorem mem_candPairs_ids (l : List ((Nat × Hash) × JournalEntry))
    (era : Nat) (x : Hash) :
    x ∈ (candPairs l era).map Prod.fst ↔ (era, x) ∈ l.map Prod.fst := by
  induction l with
  | nil => simp [candPairs]
  | cons p rest ih =>
    rw [candPairs_cons]
    by_cases h : p.1.1 = era
    · rw [if_pos h]
      simp only [List.map_cons, List.mem_cons, ih]
      constructor
      · rintro (rfl | hx)
        · left
          rw [← h]
        · exact Or.inr hx
      · rintro (he | hx)
        · left
          rw [← he]
        · exact Or.inr hx
    · rw [if_neg h, ih]
      simp only [List.map_cons, List.mem_cons]
      constructor
      · exact Or.inr
      · rintro (he | hx)
        · exact absurd (congrArg Prod.fst he).symm h
        · exact hx

theorem candPairs_ids_nodup (l : List ((Nat × Hash) × JournalEntry))
    (era : Nat) (hnd : (l.map Prod.fst).Nodup) :
    ((candPairs l era).map Prod.fst).Nodup := by
  induction l with
  | nil => simp [candPairs]
  | cons p rest ih =>
    rw [List.map_cons, List.nodup_cons] at hnd
    rw [candPairs_cons]
    by_cases h : p.1.1 = era
    · rw [if_pos h]
      rw [List.map_cons, List.nodup_cons]
      refine ⟨?_, ih hnd.2⟩
      intro hc
      have : (era, p.1.2) ∈ rest.map Prod.fst :=
        (mem_candPairs_ids rest era p.1.2).1 hc
      rw [← h] at this
      exact hnd.1 (by simpa using this)
    · rw [if_neg h]
      exact ih hnd.2

theorem candPairs_lookup (l : List ((Nat × Hash) × JournalEntry))
    (era : Nat) (hnd : (l.map Prod.fst).Nodup) :
    ∀ p ∈ candPairs l era, assocLookup l (era, p.1) = some p.2 := by
  intro p hp
  simp only [candPairs, List.mem_map, List.mem_filter] at hp
  obtain ⟨q, ⟨hq, hera⟩, rfl⟩ := hp
  have hkey : q.1 = (era, q.1.2) := by
    have : q.1.1 = era := by simpa using hera
    rw [← this]
  refine assocLookup_eq_some_of_mem ?_ hnd
  rw [← hkey]
  exact hq

theorem candPairs_nil (l : List ((Nat × Hash) × JournalEntry)) (era : Nat)
    (h : ∀ id, assocLookup l (era, id) = none) : candPairs l era = [] := by
  induction l with
  | nil => rfl
  | cons p rest ih =>
    have hp : ¬p.1.1 = era := by
      intro he
      have hl := h p.1.2
      have hkey : (era, p.1.2) = p.1 := by
        rw [← he]
      rw [hkey] at hl
      simp [assocLookup] at hl
    rw [candPairs_cons, if_neg hp]
    refine ih ?_
    intro id
    have hl := h id
    have hne : (era, id) ≠ p.1 := by
      intro he
      exact hp (congrArg Prod.fst he).symm
    simpa [assocLookup, hne] using hl

/-- Journal-load step: `processHashes` preserves the invariant and the
era bound when the listed hashes are distinct and the current era is
still unpopulated. -/
theorem inv_processHashes (db : DB) (era : Nat) :
    ∀ (hs : List Hash) (j j2 : Journal),
    modIndexInv j → hs.Nodup →
    (∀ h2 ∈ hs, assocLookup j.entries (era, h2) = none) →
    (∀ e2 h2, era < e2 → assocLookup j.entries (e2, h2) = none) →
    processHashes db era j hs = some j2 →
    modIndexInv j2 ∧
      (∀ e2 h2, era < e2 → assocLookup j2.entries (e2, h2) = none) := by
  intro hs
  induction hs with
  | nil =>
    intro j j2 hinv _ _ hbound hrun
    simp only [processHashes] at hrun
    cases hrun
    exact ⟨hinv, hbound⟩
  | cons h2 rest ih =>
    intro j j2 hinv hnd hfresh hbound hrun
    simp only [processHashes] at hrun
    cases hid : assocLookup db.idKeys h2 with
    | none =>
      rw [hid] at hrun
      cases hrun
    | some e =>
      rw [hid] at hrun
      rw [List.nodup_cons] at hnd
      have hfr : assocLookup j.entries (era, h2) = none :=
        hfresh h2 (List.mem_cons_self h2 rest)
      refine ih (addJournalEntry j era h2 e) j2
        (inv_addJournalEntry j era h2 e hinv hfr) hnd.2 ?_ ?_ hrun
      · intro h3 hh3
        unfold addJournalEntry
        simp only
        rw [entriesLookup_insert]
        have hne : h3 ≠ h2 := by
          intro he
          exact hnd.1 (he ▸ hh3)
        rw [if_neg (by simp [hne])]
        exact hfresh h3 (List.mem_cons_of_mem h2 hh3)
      · intro e2 h3 hlt
        unfold addJournalEntry
        simp only
        rw [entriesLookup_insert]
        rw [if_neg (by
          intro he
          rw [Prod.mk.injEq] at he
          omega)]
        exact hbound e2 h3 hlt

theorem inv_readLoop (db : DB) (hwf : dbWF db) :
    ∀ (fuel era : Nat) (j j2 : Journal),
    modIndexInv j →
    (∀ e2 h2, era ≤ e2 → assocLookup j.entries (e2, h2) = none) →
    readLoop db fuel era j = some j2 → modIndexInv j2 := by
  intro fuel
  induction fuel with
  | zero =>
    intro era j j2 hinv _ hrun
    simp only [readLoop] at hrun
    cases hjk : assocLookup db.journalKeys era with
    | none =>
      rw [hjk] at hrun
      cases hrun
      exact hinv
    | some hashes =>
      rw [hjk] at hrun
      cases hrun
  | succ fuel ih =>
    intro era j j2 hinv hbound hrun
    simp only [readLoop] at hrun
    cases hjk : assocLookup db.journalKeys era with
    | none =>
      rw [hjk] at hrun
      cases hrun
      exact hinv
    | some hashes =>
      rw [hjk] at hrun
      have hrun2 : (match processHashes db era j hashes with
          | none => none
          | some j3 => readLoop db fuel (era + 1) j3) = some j2 := hrun
      cases hproc : processHashes db era j hashes with
      | none =>
        rw [hproc] at hrun2
        cases hrun2
      | some j3 =>
        rw [hproc] at hrun2
        have hstep := inv_processHashes db era hashes j j3 hinv
          (hwf era hashes hjk)
          (fun h2 _ => hbound era h2 (Nat.le_refl era))
          (fun e2 h2 hlt => hbound e2 h2 (Nat.le_of_lt hlt)) hproc
        exact ih (era + 1) j3 j2 hstep.1
          (fun e2 h2 hle => hstep.2 e2 h2 (by omega)) hrun2

/-!
Claim theorems.
-/

/-- Claim C2: for every key, record and target block, a `set` makes the
next `get` of that key return that record, and a `remove` makes it
return "does not exist", regardless of the journal and the durable
store. -/
theorem overlay_precedence (m : MetaDB) (db : DB) (K : Address)
    (R : AccountMeta) (tgt : Nat × Hash) :
    (m.set K R).get db K tgt = some (.ok (some R)) ∧
    (m.remove K).get db K tgt = some (.ok none) := by
  constructor <;>
    simp [MetaDB.get, MetaDB.set, MetaDB.remove, assocLookup_insert]

/-- Claim C3, counterexample: with a pending overlay write for key 7,
`get` at the canonical base returns the overlay record, not the result
of a direct canonical-store lookup (which is `none`), so the base fast
path does not always equal the direct lookup. -/
theorem base_fast_path_counterexample :
    ((MetaDB.mk ⟨[], [], (0, 0)⟩ []).set 7 (demoMeta 1)).get emptyDB 7 (0, 0)
        = some (.ok (some (demoMeta 1))) ∧
      metaAt emptyDB 7 = none ∧
      ((MetaDB.mk ⟨[], [], (0, 0)⟩ []).set 7 (demoMeta 1)).get emptyDB 7 (0, 0)
        ≠ some (.ok (metaAt emptyDB 7)) := by
  decide

/-- Claim C3, amended: when the key has no pending overlay entry, a
`get` targeted at the current canonical base returns exactly the direct
canonical-store lookup of the key. -/
theorem base_fast_path_amended (m : MetaDB) (db : DB) (K : Address)
    (hov : assocLookup m.overlay K = none) :
    m.get db K m.journal.canon_base = some (.ok (metaAt db K)) := by
  unfold MetaDB.get
  rw [hov]
  simp

/-- Witness for the amended base fast path at a concrete store. -/
theorem base_fast_path_amended_witness :
    assocLookup (MetaDB.mk ⟨[], [], (0, 0)⟩ []).overlay 7 = none ∧
    (MetaDB.mk ⟨[], [], (0, 0)⟩ []).get
        (DB.mk [(7, demoMeta 2)] none [] []) 7 (0, 0) =
      some (.ok (metaAt (DB.mk [(7, demoMeta 2)] none [] []) 7)) :=
  ⟨rfl, base_fast_path_amended (MetaDB.mk ⟨[], [], (0, 0)⟩ [])
    (DB.mk [(7, demoMeta 2)] none [] []) 7 rfl⟩

/-- Claim C5, counterexample: `mark_canonical` sets the canonical base
unconditionally, so calling it with a lower era than the current base
height lowers the base height: after finalizing era 1 the base height is
1, and a further `mark_canonical` at era 0 leaves it at 0. -/
theorem canon_base_counterexample :
    (((MetaDB.mk ⟨[], [], (0, 0)⟩ []).mark_canonical [] 1 0).1.journal.canon_base.1
        = 1) ∧
    ((((MetaDB.mk ⟨[], [], (0, 0)⟩ []).mark_canonical [] 1 0).1.mark_canonical
        [] 0 5).1.journal.canon_base.1 = 0) := by
  decide

/-- Claim C5, amended: `journal_under` never changes the canonical base,
and `mark_canonical` sets it to exactly its arguments, so the base
height never decreases provided every `mark_canonical` call uses an era
at or above the current base height. -/
theorem canon_base_monotone_amended :
    (∀ (m : MetaDB) (batch : List BatchOp) (now : Nat) (id parent_id : Hash),
      (m.journal_under batch now id parent_id).1.journal.canon_base =
        m.journal.canon_base) ∧
    (∀ (m : MetaDB) (batch : List BatchOp) (H : Nat) (C : Hash),
      (m.mark_canonical batch H C).1.journal.canon_base = (H, C)) ∧
    (∀ (m : MetaDB) (batch : List BatchOp) (H : Nat) (C : Hash),
      m.journal.canon_base.1 ≤ H →
      m.journal.canon_base.1 ≤
        (m.mark_canonical batch H C).1.journal.canon_base.1) := by
  refine ⟨?_, ?_, ?_⟩
  · intro m batch now id parent_id
    rfl
  · intro m batch H C
    rfl
  · intro m batch H C h
    exact h

/-- Witness for the amended base monotonicity at a concrete call. -/
theorem canon_base_monotone_amended_witness :
    (MetaDB.mk ⟨[], [], (0, 0)⟩ []).journal.canon_base.1 ≤ 3 ∧
    (MetaDB.mk ⟨[], [], (0, 0)⟩ []).journal.canon_base.1 ≤
      ((MetaDB.mk ⟨[], [], (0, 0)⟩ []).mark_canonical [] 3 4).1.journal.canon_base.1 :=
  ⟨by decide,
   canon_base_monotone_amended.2.2 (MetaDB.mk ⟨[], [], (0, 0)⟩ []) [] 3 4
     (by decide)⟩

/-- Claim C6: `journal_under` clears the overlay and stores a journal
entry at `(now, id)` whose parent is the given parent and whose changes
are exactly the overlay contents from before the call. -/
theorem journal_under_moves_overlay (m : MetaDB) (batch : List BatchOp)
    (now : Nat) (id parent_id : Hash) :
    (m.journal_under batch now id parent_id).1.overlay = [] ∧
    assocLookup (m.journal_under batch now id parent_id).1.journal.entries
      (now, id) = some ⟨parent_id, m.overlay⟩ := by
  constructor
  · rfl
  · show assocLookup
      (entriesInsert m.journal.entries (now, id) ⟨parent_id, m.overlay⟩)
      (now, id) = some ⟨parent_id, m.overlay⟩
    rw [entriesLookup_insert, if_pos rfl]

/-- Claim C10: when the journal holds no entry at era `H`,
`mark_canonical H C` still succeeds, sets the canonical base to
`(H, C)`, stages only the base marker and the deletion of the
candidate-list key for `H`, and leaves the journal entries, the
modification index and the overlay unchanged. -/
theorem mark_canonical_empty_height (m : MetaDB) (batch : List BatchOp)
    (H : Nat) (C : Hash)
    (hempty : ∀ id, assocLookup m.journal.entries (H, id) = none) :
    (m.mark_canonical batch H C).1.journal.entries = m.journal.entries ∧
    (m.mark_canonical batch H C).1.journal.modifications =
      m.journal.modifications ∧
    (m.mark_canonical batch H C).1.journal.canon_base = (H, C) ∧
    (m.mark_canonical batch H C).1.overlay = m.overlay ∧
    (m.mark_canonical batch H C).2 =
      batch ++ [BatchOp.putBase (H, C), BatchOp.delJournalKey H] := by
  have hc := candPairs_nil m.journal.entries H hempty
  refine ⟨?_, ?_, ?_, ?_, ?_⟩ <;>
    simp only [MetaDB.mark_canonical, hc, List.foldl_nil]

/-- Witness for `mark_canonical` at an empty height. -/
theorem mark_canonical_empty_height_witness :
    (∀ id, assocLookup (MetaDB.mk ⟨[], [], (0, 0)⟩ []).journal.entries
      (4, id) = none) ∧
    ((MetaDB.mk ⟨[], [], (0, 0)⟩ []).mark_canonical [] 4 9).1.journal.canon_base
      = (4, 9) :=
  ⟨fun _ => rfl,
   (mark_canonical_empty_height (MetaDB.mk ⟨[], [], (0, 0)⟩ []) [] 4 9
     (fun _ => rfl)).2.2.1⟩

theorem markFold_lookup_none (end_era : Nat) (canon_id : Hash) :
    ∀ (ps : List (Hash × JournalEntry)) (j : Journal) (b : List BatchOp)
      (S : Hash),
    (S ∈ ps.map Prod.fst ∨ assocLookup j.entries (end_era, S) = none) →
    assocLookup ((ps.foldl (markStep end_era canon_id) (j, b)).1).entries
      (end_era, S) = none := by
  intro ps
  induction ps with
  | nil =>
    intro j b S h
    rcases h with h | h
    · simp at h
    · exact h
  | cons p rest ih =>
    intro j b S h
    rw [List.foldl_cons]
    have hstep := markStep_fst end_era canon_id j b p
    have hnext : S ∈ rest.map Prod.fst ∨
        assocLookup (markStep end_era canon_id (j, b) p).1.entries
          (end_era, S) = none := by
      rcases h with h | h
      · rw [List.map_cons, List.mem_cons] at h
        rcases h with rfl | h
        · right
          rw [hstep]
          simp only
          rw [assocLookup_remove, if_pos rfl]
        · exact Or.inl h
      · right
        rw [hstep]
        simp only
        rw [assocLookup_remove]
        by_cases hx : ((end_era, S) : Nat × Hash) = (end_era, p.1)
        · rw [if_pos hx]
        · rw [if_neg hx]
          exact h
    have := ih (markStep end_era canon_id (j, b) p).1
      (markStep end_era canon_id (j, b) p).2 S hnext
    simpa using this

/-- Claim C1, counterexample: seal two siblings 10 and 11 at era 1 and
finalize era 1 with block 10; a query against the discarded sibling
(1, 11) fails, but with MissingJournalEntry, not with StatePruned (the
entry was removed from the journal outright). -/
theorem pruning_error_kind_counterexample :
    ((((MetaDB.mk ⟨[], [], (0, 0)⟩ []).journal_under [] 1 10 0).1.journal_under
        [] 1 11 0).1.mark_canonical [] 1 10).1.get emptyDB 7 (1, 11) =
      some (.error (.MissingJournalEntry 1 11)) ∧
    ((((MetaDB.mk ⟨[], [], (0, 0)⟩ []).journal_under [] 1 10 0).1.journal_under
        [] 1 11 0).1.mark_canonical [] 1 10).1.get emptyDB 7 (1, 11) ≠
      some (.error (.StatePruned 1 11)) := by
  decide

/-- Claim C1, amended: after `mark_canonical H C`, for any sibling
`S ≠ C` that was present in the journal at era `H`, a `get` for any key
with no pending overlay entry against `(H, S)` fails with
`MissingJournalEntry H S`: the discarded branch is never silently
answered from canonical data, but the error kind is the
missing-journal-entry one, not pruned-state. -/
theorem pruned_sibling_query_amended (m : MetaDB) (batch : List BatchOp)
    (db : DB) (H : Nat) (C S : Hash) (K : Address) (e : JournalEntry)
    (hSC : S ≠ C)
    (hpresent : assocLookup m.journal.entries (H, S) = some e)
    (hov : assocLookup m.overlay K = none) :
    (m.mark_canonical batch H C).1.get db K (H, S) =
      some (.error (.MissingJournalEntry H S)) := by
  have hovr : (m.mark_canonical batch H C).1.overlay = m.overlay := rfl
  have hbase : (m.mark_canonical batch H C).1.journal.canon_base = (H, C) :=
    rfl
  have hS : S ∈ (candPairs m.journal.entries H).map Prod.fst := by
    rw [mem_candPairs_ids]
    exact List.mem_map.2 ⟨((H, S), e), assocLookup_mem hpresent, rfl⟩
  have hlook : assocLookup (m.mark_canonical batch H C).1.journal.entries
      (H, S) = none :=
    markFold_lookup_none H C (candPairs m.journal.entries H) m.journal
      batch S (Or.inl hS)
  have hne : ((H, S) : Nat × Hash) ≠ (H, C) := by
    intro he
    exact hSC (congrArg Prod.snd he)
  unfold MetaDB.get
  rw [hovr, hov]
  simp [hbase, hlook, hne]

/-- Witness for the amended pruning claim at a concrete journal. -/
theorem pruned_sibling_query_amended_witness :
    ((11 : Hash) ≠ 10) ∧
    assocLookup (MetaDB.mk ⟨[((1, 11), ⟨0, []⟩)], [], (0, 0)⟩ []).journal.entries
      (1, 11) = some ⟨0, []⟩ ∧
    ((MetaDB.mk ⟨[((1, 11), ⟨0, []⟩)], [], (0, 0)⟩ []).mark_canonical
        [] 1 10).1.get emptyDB 7 (1, 11) =
      some (.error (.MissingJournalEntry 1 11)) :=
  ⟨by decide, rfl,
   pruned_sibling_query_amended
     (MetaDB.mk ⟨[((1, 11), ⟨0, []⟩)], [], (0, 0)⟩ []) [] emptyDB 1 10 11 7
     ⟨0, []⟩ (by decide) rfl rfl⟩

/-- Claim C4: the Modification Index invariant — `(h, id)` is in the
modification set of key `K` exactly when the journal entry at `(h, id)`
records a change for `K` — is preserved by `journal_under` (for a block
not already journalled), preserved by `mark_canonical` (for a journal
whose entry keys are distinct, as a `BTreeMap` guarantees), and
established by the journal load for any well-formed store. -/
theorem mod_index_invariant :
    (∀ (m : MetaDB) (batch : List BatchOp) (now : Nat) (id parent_id : Hash),
      modIndexInv m.journal →
      assocLookup m.journal.entries (now, id) = none →
      modIndexInv (m.journal_under batch now id parent_id).1.journal) ∧
    (∀ (m : MetaDB) (batch : List BatchOp) (H : Nat) (C : Hash),
      modIndexInv m.journal →
      (m.journal.entries.map Prod.fst).Nodup →
      modIndexInv (m.mark_canonical batch H C).1.journal) ∧
    (∀ (db : DB) (base : Nat × Hash) (fuel : Nat) (j : Journal),
      dbWF db → Journal.read_from db base fuel = some j →
      modIndexInv j) := by
  refine ⟨?_, ?_, ?_⟩
  · intro m batch now id parent_id hinv hfresh
    exact inv_addJournalEntry m.journal now id ⟨parent_id, m.overlay⟩ hinv
      hfresh
  · intro m batch H C hinv hnd
    have hfold := inv_markFold H C (candPairs m.journal.entries H)
      m.journal batch hinv
      (candPairs_lookup m.journal.entries H hnd)
      (candPairs_ids_nodup m.journal.entries H hnd)
    exact fun K p => hfold K p
  · intro db base fuel j hwf hrun
    exact inv_readLoop db hwf fuel (base.1 + 1) ⟨[], [], base⟩ j
      (modIndexInv_empty [] rfl [] rfl base)
      (fun e2 h2 _ => rfl) hrun

/-- Witness for the invariant preservation: sealing one block with one
pending change from the empty journal. -/
theorem mod_index_invariant_witness :
    modIndexInv (MetaDB.mk ⟨[], [], (0, 0)⟩ [(5, some (demoMeta 1))]).journal ∧
    assocLookup (MetaDB.mk ⟨[], [], (0, 0)⟩ [(5, some (demoMeta 1))]).journal.entries
      (1, 8) = none ∧
    modIndexInv ((MetaDB.mk ⟨[], [], (0, 0)⟩
      [(5, some (demoMeta 1))]).journal_under [] 1 8 0).1.journal :=
  ⟨modIndexInv_empty [] rfl [] rfl (0, 0), rfl,
   mod_index_invariant.1 (MetaDB.mk ⟨[], [], (0, 0)⟩ [(5, some (demoMeta 1))])
     [] 1 8 0 (modIndexInv_empty [] rfl [] rfl (0, 0)) rfl⟩

theorem commit_append (db : DB) (b1 b2 : List BatchOp) :
    commit db (b1 ++ b2) = commit (commit db b1) b2 := by
  simp [commit, List.foldl_append]

theorem metaAt_putMeta (db : DB) (b : Address) (v : AccountMeta)
    (a : Address) :
    metaAt (applyOp db (.putMeta b v)) a =
      if a = b then some v else metaAt db a := by
  simp [applyOp, metaAt, assocLookup_insert]

theorem metaAt_delMeta (db : DB) (b : Address) (a : Address) :
    metaAt (applyOp db (.delMeta b)) a =
      if a = b then none else metaAt db a := by
  simp [applyOp, metaAt, assocLookup_remove]

theorem metaAt_commit_deltaOps_notmem :
    ∀ (l : List (Address × Option AccountMeta)) (db : DB) (a : Address),
    a ∉ l.map Prod.fst →
    metaAt (commit db (deltaOps l)) a = metaAt db a := by
  intro l
  induction l with
  | nil =>
    intro db a _
    rfl
  | cons q rest ih =>
    intro db a ha
    rw [List.map_cons, List.mem_cons, not_or] at ha
    have hstep : metaAt (applyOp db (match q.2 with
        | some d => BatchOp.putMeta q.1 d
        | none => BatchOp.delMeta q.1)) a = metaAt db a := by
      cases q.2 with
      | some d =>
        rw [metaAt_putMeta, if_neg ha.1]
      | none =>
        rw [metaAt_delMeta, if_neg ha.1]
    calc metaAt (commit db (deltaOps (q :: rest))) a
        = metaAt (commit (applyOp db _) (deltaOps rest)) a := rfl
      _ = metaAt (applyOp db _) a := ih _ a ha.2
      _ = metaAt db a := hstep

theorem metaAt_commit_deltaOps :
    ∀ (l : List (Address × Option AccountMeta)) (db : DB) (a : Address),
    (l.map Prod.fst).Nodup →
    metaAt (commit db (deltaOps l)) a =
      match assocLookup l a with
      | some (some d) => some d
      | some none => none
      | none => metaAt db a := by
  intro l
  induction l with
  | nil =>
    intro db a _
    rfl
  | cons q rest ih =>
    intro db a hnd
    rw [List.map_cons, List.nodup_cons] at hnd
    by_cases ha : a = q.1
    · have hl : assocLookup (q :: rest) a = some q.2 := by
        simp [assocLookup, ha]
      rw [hl]
      have h1 : metaAt (commit db (deltaOps (q :: rest))) a =
          metaAt (commit (applyOp db (match q.2 with
            | some d => BatchOp.putMeta q.1 d
            | none => BatchOp.delMeta q.1)) (deltaOps rest)) a := rfl
      rw [h1, metaAt_commit_deltaOps_notmem rest _ a (by
        rw [ha]
        exact hnd.1)]
      cases q.2 with
      | some d =>
        rw [metaAt_putMeta, if_pos ha]
      | none =>
        rw [metaAt_delMeta, if_pos ha]
    · have hl : assocLookup (q :: rest) a = assocLookup rest a := by
        simp [assocLookup, ha]
      rw [hl]
      have hstep : metaAt (applyOp db (match q.2 with
          | some d => BatchOp.putMeta q.1 d
          | none => BatchOp.delMeta q.1)) a = metaAt db a := by
        cases q.2 with
        | some d =>
          rw [metaAt_putMeta, if_neg ha]
        | none =>
          rw [metaAt_delMeta, if_neg ha]
      calc metaAt (commit db (deltaOps (q :: rest))) a
          = metaAt (commit (applyOp db _) (deltaOps rest)) a := rfl
        _ = _ := by
              rw [ih _ a hnd.2, hstep]

theorem metaAt_commit_markOps_none (canon_id : Hash) :
    ∀ (ps : List (Hash × JournalEntry)) (db : DB) (a : Address),
    canon_id ∉ ps.map Prod.fst →
    metaAt (commit db (markOps canon_id ps)) a = metaAt db a := by
  intro ps
  induction ps with
  | nil =>
    intro db a _
    rfl
  | cons p rest ih =>
    intro db a hc
    rw [List.map_cons, List.mem_cons, not_or] at hc
    have hp : p.1 ≠ canon_id := fun he => hc.1 he.symm
    have hops : markOps canon_id (p :: rest) =
        BatchOp.delIdKey p.1 :: markOps canon_id rest := by
      simp [markOps, hp]
    rw [hops]
    have h1 : metaAt (applyOp db (BatchOp.delIdKey p.1)) a = metaAt db a :=
      rfl
    calc metaAt (commit db (BatchOp.delIdKey p.1 :: markOps canon_id rest)) a
        = metaAt (commit (applyOp db (BatchOp.delIdKey p.1))
            (markOps canon_id rest)) a := rfl
      _ = metaAt (applyOp db (BatchOp.delIdKey p.1)) a := ih _ a hc.2
      _ = metaAt db a := h1

theorem metaAt_commit_markOps (canon_id : Hash) (e : JournalEntry)
    (hndE : (e.entries.map Prod.fst).Nodup) :
    ∀ (ps : List (Hash × JournalEntry)) (db : DB) (a : Address),
    (ps.map Prod.fst).Nodup → (canon_id, e) ∈ ps →
    metaAt (commit db (markOps canon_id ps)) a =
      match assocLookup e.entries a with
      | some (some d) => some d
      | some none => none
      | none => metaAt db a := by
  intro ps
  induction ps with
  | nil =>
    intro db a _ hmem
    simp at hmem
  | cons p rest ih =>
    intro db a hnd hmem
    rw [List.map_cons, List.nodup_cons] at hnd
    by_cases hp : p.1 = canon_id
    · have hpe : p = (canon_id, e) := by
        rcases List.mem_cons.1 hmem with h | h
        · exact h.symm
        · exfalso
          have hm : canon_id ∈ rest.map Prod.fst :=
            List.mem_map.2 ⟨(canon_id, e), h, rfl⟩
          rw [← hp] at hm
          exact hnd.1 hm
      have hcrest : canon_id ∉ rest.map Prod.fst := by
        rw [← hp]
        exact hnd.1
      have hops : markOps canon_id (p :: rest) =
          BatchOp.delIdKey p.1 :: (deltaOps p.2.entries ++
            markOps canon_id rest) := by
        simp [markOps, hp]
      rw [hops]
      have hsplit : metaAt (commit db (BatchOp.delIdKey p.1 ::
          (deltaOps p.2.entries ++ markOps canon_id rest))) a =
          metaAt (commit (commit (applyOp db (BatchOp.delIdKey p.1))
            (deltaOps p.2.entries)) (markOps canon_id rest)) a := by
        rw [show commit db (BatchOp.delIdKey p.1 ::
            (deltaOps p.2.entries ++ markOps canon_id rest)) =
            commit (applyOp db (BatchOp.delIdKey p.1))
              (deltaOps p.2.entries ++ markOps canon_id rest) from rfl]
        rw [commit_append]
      rw [hsplit]
      rw [metaAt_commit_markOps_none canon_id rest _ a hcrest]
      have hdb : metaAt (applyOp db (BatchOp.delIdKey p.1)) a =
          metaAt db a := rfl
      rw [hpe] at *
      rw [metaAt_commit_deltaOps e.entries _ a hndE]
      cases assocLookup e.entries a with
      | none => exact hdb
      | some d =>
        cases d with
        | none => rfl
        | some d2 => rfl
    · have hmem2 : (canon_id, e) ∈ rest := by
        rcases List.mem_cons.1 hmem with h | h
        · exact absurd (congrArg Prod.fst h.symm) hp
        · exact h
      have hops : markOps canon_id (p :: rest) =
          BatchOp.delIdKey p.1 :: markOps canon_id rest := by
        simp [markOps, hp]
      rw [hops]
      calc metaAt (commit db (BatchOp.delIdKey p.1 ::
              markOps canon_id rest)) a
          = metaAt (commit (applyOp db (BatchOp.delIdKey p.1))
              (markOps canon_id rest)) a := rfl
        _ = _ := ih _ a hnd.2 hmem2

theorem markFold_batch (end_era : Nat) (canon_id : Hash) :
    ∀ (ps : List (Hash × JournalEntry)) (j : Journal) (b : List BatchOp),
    (ps.foldl (markStep end_era canon_id) (j, b)).2 =
      b ++ markOps canon_id ps := by
  intro ps
  induction ps with
  | nil =>
    intro j b
    simp [markOps]
  | cons p rest ih =>
    intro j b
    rw [List.foldl_cons]
    have hsnd : (markStep end_era canon_id (j, b) p).2 =
        b ++ (BatchOp.delIdKey p.1 ::
          (if p.1 = canon_id then deltaOps p.2.entries else [])) := by
      by_cases hp : p.1 = canon_id <;>
        simp [markStep, hp]
    have := ih (markStep end_era canon_id (j, b) p).1
      (markStep end_era canon_id (j, b) p).2
    rw [show rest.foldl (markStep end_era canon_id)
        (markStep end_era canon_id (j, b) p) =
        rest.foldl (markStep end_era canon_id)
          ((markStep end_era canon_id (j, b) p).1,
           (markStep end_era canon_id (j, b) p).2) from by rw [Prod.mk.eta]]
    rw [this, hsnd]
    by_cases hp : p.1 = canon_id
    · simp [markOps, hp]
    · simp [markOps, hp]

/-- Claim C7: finalize applies the canonical delta and only it.  After
committing the batch staged by `mark_canonical H C`, a key set to `R1`
in the canonical candidate delta reads back as `R1` from the canonical
store, a key tombstoned there reads back as absent, and every key not
touched by the canonical delta is exactly as the input batch alone
would have left it — in particular, sibling deltas are never applied to
entity keys. -/
theorem finalize_applies_canonical_delta (m : MetaDB)
    (batch : List BatchOp) (db : DB) (H : Nat) (C : Hash) (K : Address)
    (R1 : AccountMeta) (e : JournalEntry)
    (hndJ : (m.journal.entries.map Prod.fst).Nodup)
    (hC : assocLookup m.journal.entries (H, C) = some e)
    (hndE : (e.entries.map Prod.fst).Nodup)
    (hK : assocLookup e.entries K = some (some R1)) :
    metaAt (commit db (m.mark_canonical batch H C).2) K = some R1 ∧
    (∀ K2, assocLookup e.entries K2 = some none →
      metaAt (commit db (m.mark_canonical batch H C).2) K2 = none) ∧
    (∀ a, a ∉ e.entries.map Prod.fst →
      metaAt (commit db (m.mark_canonical batch H C).2) a =
        metaAt (commit db batch) a) := by
  have hbatch : (m.mark_canonical batch H C).2 =
      (batch ++ markOps C (candPairs m.journal.entries H)) ++
        [BatchOp.putBase (H, C), BatchOp.delJournalKey H] := by
    show (List.foldl (markStep H C) (m.journal, batch)
        (candPairs m.journal.entries H)).2 ++
        [BatchOp.putBase (H, C), BatchOp.delJournalKey H] = _
    rw [markFold_batch]
  have hmem : (C, e) ∈ candPairs m.journal.entries H := by
    have hm : ((H, C), e) ∈ m.journal.entries := assocLookup_mem hC
    simp only [candPairs, List.mem_map, List.mem_filter]
    exact ⟨((H, C), e), ⟨hm, by simp⟩, rfl⟩
  have heval : ∀ x : Address,
      metaAt (commit db (m.mark_canonical batch H C).2) x =
        match assocLookup e.entries x with
        | some (some d) => some d
        | some none => none
        | none => metaAt (commit db batch) x := by
    intro x
    rw [hbatch, commit_append, commit_append]
    have h2 : metaAt (commit (commit (commit db batch)
        (markOps C (candPairs m.journal.entries H)))
        [BatchOp.putBase (H, C), BatchOp.delJournalKey H]) x =
        metaAt (commit (commit db batch)
          (markOps C (candPairs m.journal.entries H))) x := rfl
    rw [h2]
    exact metaAt_commit_markOps C e hndE (candPairs m.journal.entries H)
      (commit db batch) x (candPairs_ids_nodup m.journal.entries H hndJ)
      hmem
  refine ⟨?_, ?_, ?_⟩
  · rw [heval K, hK]
  · intro K2 h2
    rw [heval K2, h2]
  · intro a ha
    rw [heval a, assocLookup_none_of_not_mem ha]

/-- Witness for the finalize claim: one candidate at era 1 setting key 7
and tombstoning key 8; after finalizing, key 7 reads back from the
store. -/
theorem finalize_applies_canonical_delta_witness :
    assocLookup (MetaDB.mk
        ⟨[((1, 3), ⟨0, [(7, some (demoMeta 5)), (8, none)]⟩)], [], (0, 0)⟩
        []).journal.entries (1, 3) =
      some ⟨0, [(7, some (demoMeta 5)), (8, none)]⟩ ∧
    metaAt (commit emptyDB ((MetaDB.mk
        ⟨[((1, 3), ⟨0, [(7, some (demoMeta 5)), (8, none)]⟩)], [], (0, 0)⟩
        []).mark_canonical [] 1 3).2) 7 = some (demoMeta 5) :=
  ⟨rfl,
   (finalize_applies_canonical_delta
     (MetaDB.mk ⟨[((1, 3), ⟨0, [(7, some (demoMeta 5)), (8, none)]⟩)], [],
       (0, 0)⟩ [])
     [] emptyDB 1 3 7 (demoMeta 5) ⟨0, [(7, some (demoMeta 5)), (8, none)]⟩
     (by decide) rfl (by decide) rfl).1⟩

theorem bytesNat_append_single (l : List Nat) (b : Nat) :
    bytesNat (l ++ [b]) = bytesNat l * 256 + b := by
  simp [bytesNat, List.foldl_append]

theorem bytesNat_natBytes (n : Nat) : bytesNat (natBytes n) = n := by
  induction n using Nat.strong_induction_on with
  | _ n ih =>
    rw [natBytes]
    by_cases h : n = 0
    · rw [dif_pos h, h]
      rfl
    · rw [dif_neg h, bytesNat_append_single,
        ih (n / 256) (Nat.div_lt_self (Nat.pos_of_ne_zero h) (by omega))]
      omega

theorem decode_encode_meta (m : AccountMeta) :
    decodeAccountMeta (encodeAccountMeta m) = .ok m := by
  obtain ⟨s, ch, sr, bal, non⟩ := m
  simp [encodeAccountMeta, decodeAccountMeta, bytesNat_natBytes]

theorem decode_encode_deltaItem (p : Address × Option AccountMeta) :
    decodeDeltaItem (encodeDeltaItem p) = .ok p := by
  obtain ⟨a, d⟩ := p
  cases d with
  | none =>
    simp [encodeDeltaItem, encodeDelta, encodeBool, decodeDeltaItem,
      decodeBool, bytesNat_natBytes]
  | some m =>
    simp [encodeDeltaItem, encodeDelta, encodeBool, decodeDeltaItem,
      decodeBool, bytesNat_natBytes, decode_encode_meta]

theorem decodeItems_encode :
    ∀ (l acc : List (Address × Option AccountMeta)),
    (l.map Prod.fst).Nodup →
    (∀ a ∈ l.map Prod.fst, a ∉ acc.map Prod.fst) →
    decodeItems (l.map encodeDeltaItem) acc = .ok (acc ++ l) := by
  intro l
  induction l with
  | nil =>
    intro acc _ _
    simp [decodeItems]
  | cons p rest ih =>
    intro acc hnd hdis
    rw [List.map_cons, List.nodup_cons] at hnd
    rw [List.map_cons]
    show decodeItems (encodeDeltaItem p :: rest.map encodeDeltaItem) acc =
      .ok (acc ++ p :: rest)
    have hstep : decodeItems (encodeDeltaItem p :: rest.map encodeDeltaItem)
        acc = decodeItems (rest.map encodeDeltaItem)
          (assocInsert p.1 p.2 acc) := by
      simp [decodeItems, decode_encode_deltaItem p]
    rw [hstep]
    have hfr : p.1 ∉ acc.map Prod.fst :=
      hdis p.1 (by simp)
    have hins : assocInsert p.1 p.2 acc = acc ++ [(p.1, p.2)] := by
      rw [assocInsert, assocRemove_eq_self hfr]
    rw [hins]
    have hdis2 : ∀ a ∈ rest.map Prod.fst,
        a ∉ (acc ++ [(p.1, p.2)]).map Prod.fst := by
      intro a ha
      rw [List.map_append, List.mem_append]
      rintro (hc | hc)
      · exact hdis a (List.mem_cons_of_mem _ ha) hc
      · simp at hc
        rw [hc] at ha
        exact hnd.1 ha
    rw [ih (acc ++ [(p.1, p.2)]) hnd.2 hdis2]
    simp

/-- Claim C8: encoding then decoding is the identity for both wire
types — unconditionally for an entity record, and for a journal entry
whose change map binds each address once (as a `HashMap` guarantees). -/
theorem rlp_round_trip :
    (∀ m : AccountMeta, decodeAccountMeta (encodeAccountMeta m) = .ok m) ∧
    (∀ je : JournalEntry, (je.entries.map Prod.fst).Nodup →
      decodeJournalEntry (encodeJournalEntry je) = .ok je) := by
  constructor
  · exact decode_encode_meta
  · intro je hnd
    obtain ⟨parent, entries⟩ := je
    show decodeJournalEntry (Rlp.list [.str (natBytes parent),
      .list (entries.map encodeDeltaItem)]) = .ok ⟨parent, entries⟩
    have hitems := decodeItems_encode entries [] hnd (by simp)
    simp [decodeJournalEntry, hitems, bytesNat_natBytes]

/-- Witness for the round trip at concrete values. -/
theorem rlp_round_trip_witness :
    decodeAccountMeta (encodeAccountMeta (demoMeta 300)) =
      .ok (demoMeta 300) ∧
    ((⟨9, [(7, some (demoMeta 2)), (8, none)]⟩ :
        JournalEntry).entries.map Prod.fst).Nodup ∧
    decodeJournalEntry (encodeJournalEntry
        ⟨9, [(7, some (demoMeta 2)), (8, none)]⟩) =
      .ok ⟨9, [(7, some (demoMeta 2)), (8, none)]⟩ :=
  ⟨rlp_round_trip.1 (demoMeta 300), by decide,
   rlp_round_trip.2 ⟨9, [(7, some (demoMeta 2)), (8, none)]⟩ (by decide)⟩

set_option maxHeartbeats 2000000 in
/-- Claim C9: the persistence round trip of the concrete ten-block
scenario — sealing blocks 1 to 10 at heights 1 to 10, each parented on
the previous and touching its own key, finalizing height 1 with block 1,
then reopening from the same durable backing — reconstructs a journal
(entries, modification index and canonical base) equal to the in-memory
one. -/
theorem persistence_round_trip :
    (MetaDB.new demoFinal.2 0 20).map MetaDB.journal =
      some demoFinal.1.journal := by
  decide

end MetaDb
